import Mathlib

/-!
Verification of the reactive rerun engine (watcher) of a test runner.

The definitions below are a shallow embedding of the watcher source:
the `Watcher` class (dependency tracking, exclusivity tracking, failure
counting, touched/temporary file suppression, the rerun decision in
`runAfterChanges`, the `run` dispatcher and the stdin control channel),
the `Debouncer` helper, and the generator-style `plan` implementation's
debounce callback.  JavaScript arrays become `List`s, JS `Set`s become
lists with membership-guarded insertion, objects used as string maps
become association lists, and the mutation of fields becomes explicit
state passing.
-/

namespace Watch

/-- Result of the external path classifier: `classify(path, globs)`. -/
structure ClassifyResult where
  isTest : Bool
  isIgnoredByWatcher : Bool
deriving DecidableEq, Repr

/-- A provider's `main` object, as used by the watcher:
`ignoreChange(path)` and `resolveTestFile(testFile)`. -/
structure Provider where
  ignoreChange : String → Bool
  resolveTestFile : String → String

/-- Pure collaborators of the watcher: the path classifier and the
configured providers. -/
structure Env where
  classify : String → ClassifyResult
  providers : List Provider

/-- The watcher's TestDependency class: constructor(file, dependencies). -/
structure TestDependency where
  file : String
  dependencies : List String
deriving DecidableEq, Repr

/-- Embeds `TestDependency.prototype.contains(dependency)`:
`this.dependencies.includes(dependency)`. -/
def TestDependency.contains (dep : TestDependency) (dependency : String) : Bool :=
  dep.dependencies.contains dependency

/-- One entry of `this.filesWithFailures`: `{file, vector, count}`. -/
structure FailureState where
  file : String
  vector : Nat
  count : Nat
deriving DecidableEq, Repr

/-- The mutable instance state of the `Watcher` class. -/
structure WatcherState where
  clearLogOnNextRun : Bool
  runVector : Nat
  previousFiles : List String
  testDependencies : List TestDependency
  temporaryFiles : List String
  touchedFiles : List String
  filesWithExclusiveTests : List String
  filesWithFailures : List FailureState
  dirtyStates : List (String × String)

/-- Embeds `Watcher.prototype.pruneFailures(files)`: drop every failure state
whose file is in `files`. -/
def pruneFailures (states : List FailureState) (files : List String) : List FailureState :=
  states.filter (fun state => !files.contains state.file)

/-- The `.some` traversal inside `countFailure`: increment the count of
the first state for `file`, reporting whether a state was found. -/
def countFailureAux (file : String) : List FailureState → List FailureState × Bool
  | [] => ([], false)
  | state :: rest =>
    if state.file = file then
      ({ state with count := state.count + 1 } :: rest, true)
    else
      let r := countFailureAux file rest
      (state :: r.1, r.2)

/-- Embeds `Watcher.prototype.countFailure(file, vector)`: increment the first
existing record for `file` in place, or push `{file, vector, count: 1}`. -/
def countFailure (states : List FailureState) (file : String) (vector : Nat) :
    List FailureState :=
  let r := countFailureAux file states
  if r.2 then r.1 else states ++ [⟨file, vector, 1⟩]

/-- Embeds `Watcher.prototype.sumPreviousFailures(beforeVector)`: total count of
the records whose vector is strictly smaller. -/
def sumPreviousFailures (states : List FailureState) (beforeVector : Nat) : Nat :=
  states.foldl (fun total state =>
    if state.vector < beforeVector then total + state.count else total) 0

/-- Embeds `Watcher.prototype.updateExclusivity(file, hasExclusiveTests)`:
push when newly exclusive, splice out the first occurrence when no
longer exclusive. -/
def updateExclusivity (files : List String) (file : String) (hasExclusiveTests : Bool) :
    List String :=
  if hasExclusiveTests then
    if files.contains file then files else files ++ [file]
  else
    files.erase file

/-- The `.some` traversal inside `updateTestDependencies`: replace the
dependency list of the first entry for `file`, reporting whether an
entry was found. -/
def setDependenciesAux (file : String) (dependencies : List String) :
    List TestDependency → List TestDependency × Bool
  | [] => ([], false)
  | dep :: rest =>
    if dep.file = file then
      ({ dep with dependencies := dependencies } :: rest, true)
    else
      let r := setDependenciesAux file dependencies rest
      (dep :: r.1, r.2)

/-- The provider loop of `updateTestDependencies`: prepend each
provider-resolved path for `file` that is not already present. -/
def resolveDependencies (providers : List Provider) (file : String)
    (dependencies : List String) : List String :=
  providers.foldl (fun ds provider =>
    let rewritten := provider.resolveTestFile file
    if ds.contains rewritten then ds else rewritten :: ds) dependencies

/-- Embeds `Watcher.prototype.updateTestDependencies(file, dependencies)`:
prepend each provider-resolved path not already present, then delete the
entry when the list is empty, else replace the first entry or push. -/
def updateTestDependencies (providers : List Provider) (deps : List TestDependency)
    (file : String) (dependencies : List String) : List TestDependency :=
  let dependencies := resolveDependencies providers file dependencies
  if dependencies.length = 0 then
    deps.filter (fun dep => dep.file ≠ file)
  else
    let r := setDependenciesAux file dependencies deps
    if r.2 then r.1 else deps ++ [⟨file, dependencies⟩]

/-- Embeds `Watcher.prototype.cleanUnlinkedTests(unlinkedTests)`: for each
unlinked test, drop its dependency entry, its exclusivity membership and
its failure records. -/
def cleanUnlinkedTests (providers : List Provider) (s : WatcherState)
    (unlinkedTests : List String) : WatcherState :=
  unlinkedTests.foldl (fun s testFile =>
    { s with
      testDependencies := updateTestDependencies providers s.testDependencies testFile [],
      filesWithExclusiveTests := updateExclusivity s.filesWithExclusiveTests testFile false,
      filesWithFailures := pruneFailures s.filesWithFailures [testFile] }) s

/-- The first filter of `runAfterChanges`: walk the dirty paths in
order, dropping (and consuming) touched files and dropping temporary
files.  Returns the remaining touched set and the surviving paths. -/
def consumeDirtyPaths (temporaryFiles : List String) :
    List String → List String → List String × List String
  | touchedFiles, [] => (touchedFiles, [])
  | touchedFiles, path :: rest =>
    if path ∈ touchedFiles then
      consumeDirtyPaths temporaryFiles (touchedFiles.erase path) rest
    else if path ∈ temporaryFiles then
      consumeDirtyPaths temporaryFiles touchedFiles rest
    else
      let r := consumeDirtyPaths temporaryFiles touchedFiles rest
      (r.1, path :: r.2)

/-- The provider loop of `runAfterChanges`: successively filter the
dirty paths through each provider's `ignoreChange`. -/
def applyProviderIgnores (providers : List Provider) (paths : List String) : List String :=
  providers.foldl (fun ps provider => ps.filter (fun path => !provider.ignoreChange path)) paths

/-- The `dirtyStates[filePath]` lookup on the JS object used as a map. -/
def lookupDirtyState (dirtyStates : List (String × String)) (path : String) : Option String :=
  (dirtyStates.find? (fun entry => entry.1 = path)).map Prod.snd

/-- The classification loop of `runAfterChanges`: partition the
surviving dirty paths into helpers-and-sources, added-or-changed tests
and unlinked tests, dropping paths that are ignored by the watcher. -/
def partitionDirty (classify : String → ClassifyResult)
    (dirtyStates : List (String × String)) :
    List String → List String × List String × List String
  | [] => ([], [], [])
  | path :: rest =>
    let r := partitionDirty classify dirtyStates rest
    let c := classify path
    if c.isIgnoredByWatcher then r
    else if c.isTest then
      if lookupDirtyState dirtyStates path = some "unlink" then
        (r.1, r.2.1, path :: r.2.2)
      else
        (r.1, path :: r.2.1, r.2.2)
    else
      (path :: r.1, r.2.1, r.2.2)

/-- The dirty paths surviving the touched/temporary filter and the
provider `ignoreChange` filters, in order. -/
def survivingPaths (env : Env) (s : WatcherState) : List String :=
  applyProviderIgnores env.providers
    (consumeDirtyPaths s.temporaryFiles s.touchedFiles (s.dirtyStates.map Prod.fst)).2

/-- The touched-file set left after the dirty-path filter consumed the
touched entries that reappeared. -/
def remainingTouched (s : WatcherState) : List String :=
  (consumeDirtyPaths s.temporaryFiles s.touchedFiles (s.dirtyStates.map Prod.fst)).1

/-- The three classification buckets of `runAfterChanges`:
`(dirtyHelpersAndSources, addedOrChangedTests, unlinkedTests)`. -/
def classifiedPartition (env : Env) (s : WatcherState) :
    List String × List String × List String :=
  partitionDirty env.classify s.dirtyStates (survivingPaths env s)

/-- The watcher state after `runAfterChanges` reset `dirtyStates`,
consumed touched files and cleaned the unlinked tests. -/
def postCleanState (env : Env) (s : WatcherState) : WatcherState :=
  cleanUnlinkedTests env.providers
    { s with dirtyStates := [], touchedFiles := remainingTouched s }
    (classifiedPartition env s).2.2

/-- First-occurrence deduplication, the order produced by spreading a JS
`Set` built from a list. -/
def dedupFirst (l : List String) : List String :=
  l.foldl (fun acc x => if x ∈ acc then acc else acc ++ [x]) []

/-- The dependent test files of one helper-or-source path:
`this.testDependencies.filter(dep => dep.contains(path)).map(dep => dep.file)`,
per helper, keeping only the non-empty lists. -/
def dependentsLists (deps : List TestDependency) (helpers : List String) :
    List (List String) :=
  (helpers.map (fun path =>
    (deps.filter (fun dep => dep.contains path)).map TestDependency.file)).filter
    (fun tests => decide (0 < tests.length))

/-- Embeds `Watcher.prototype.runAfterChanges()`: the rerun decision.  Returns
the updated state and the file list handed to `this.run` (`none` when no
run is dispatched; `some []` is the unfiltered all-tests run). -/
def runAfterChanges (env : Env) (s : WatcherState) :
    WatcherState × Option (List String) :=
  let survivors := survivingPaths env s
  let helpers := (classifiedPartition env s).1
  let changed := (classifiedPartition env s).2.1
  let unlinked := (classifiedPartition env s).2.2
  let s1 := postCleanState env s
  if unlinked.length = survivors.length then (s1, none)
  else if helpers = [] then (s1, some changed)
  else
    let testsByHelpersOrSource := dependentsLists s1.testDependencies helpers
    if testsByHelpersOrSource.length = helpers.length then
      (s1, some (dedupFirst (changed ++ testsByHelpersOrSource.flatten)))
    else
      (s1, some [])

/-- The runtime options handed to `api.run` by `this.run`. -/
structure RuntimeOptions where
  clearLogOnNextRun : Bool
  previousFailures : Nat
  runOnlyExclusive : Bool
  runVector : Nat
  updateSnapshots : Bool
deriving DecidableEq, Repr

/-- The exclusivity block of `this.run`: the test files that previously
contained exclusive tests are always run, together with the remaining
specific files, whenever the specific files do not account for every
file with exclusive tests. -/
def reconcileExclusive (exclusive : List String) (specificFiles : List String) :
    List String × Bool :=
  let exclusiveFiles := specificFiles.filter (fun file => exclusive.contains file)
  let runOnlyExclusive := exclusiveFiles.length != exclusive.length
  if runOnlyExclusive then
    (exclusive ++ specificFiles.filter (fun file => !exclusiveFiles.contains file), true)
  else (specificFiles, false)

/-- Embeds `this.run(specificFiles, updateSnapshots)` of the `Watcher`
constructor: exclusivity reconciliation, optional test-file filter,
failure pruning, and the `api.run` invocation.  `applyFilter` is `some`
of the external `applyTestFileFilter` closure when CLI filters are
configured, `none` otherwise.  Returns the new state, the dispatched
file list and the runtime options. -/
def run (applyFilter : Option (List String → List String)) (s : WatcherState)
    (specificFiles : List String) (updateSnapshots : Bool) :
    WatcherState × List String × RuntimeOptions :=
  let clearLog := s.clearLogOnNextRun && decide (0 < s.runVector)
  let s1 := if 0 < s.runVector then { s with clearLogOnNextRun := true } else s
  let s2 := { s1 with runVector := s1.runVector + 1 }
  let step :=
    if 0 < specificFiles.length then
      let rec1 := reconcileExclusive s2.filesWithExclusiveTests specificFiles
      let files :=
        match applyFilter with
        | some f => f rec1.1
        | none => rec1.1
      (files, rec1.2,
        { s2 with filesWithFailures := pruneFailures s2.filesWithFailures files })
    else
      (specificFiles, false, s2)
  let s3 := { step.2.2 with touchedFiles := [], previousFiles := step.1 }
  (s3, step.1,
    { clearLogOnNextRun := clearLog
      previousFailures := sumPreviousFailures s3.filesWithFailures s3.runVector
      runOnlyExclusive := step.2.1
      runVector := s3.runVector
      updateSnapshots := updateSnapshots })

/-- ASCII case lowering of one character, as `String.prototype.toLowerCase`
acts on the command tokens involved here. -/
def jsCharLower (c : Char) : Char :=
  if 'A' ≤ c ∧ c ≤ 'Z' then Char.ofNat (c.toNat + 32) else c

/-- Embeds `data.toLowerCase()` on the watcher's command tokens. -/
def jsToLowerCase (s : String) : String := ⟨s.data.map jsCharLower⟩

/-- Embeds `data.trim()`: strip leading and trailing whitespace. -/
def jsTrim (s : String) : String :=
  ⟨((s.data.dropWhile Char.isWhitespace).reverse.dropWhile Char.isWhitespace).reverse⟩

/-- The stdin data handler of `Watcher.prototype.observeStdin`: trim and
lowercase, ignore unrecognized tokens, otherwise suppress console
clearing, reset the dirty states and dispatch (`rerunAll` for `r`/`rs`,
`updatePreviousSnapshots` for `u`).  Returns the new state and the
`(files, updateSnapshots)` pair handed to `this.run` (`none` when no run
is dispatched). -/
def observeStdinData (s : WatcherState) (data : String) :
    WatcherState × Option (List String × Bool) :=
  let d := jsToLowerCase (jsTrim data)
  if d = "r" ∨ d = "rs" ∨ d = "u" then
    let s1 := { s with clearLogOnNextRun := false, dirtyStates := [] }
    if d = "u" then (s1, some (s1.previousFiles, true))
    else (s1, some ([], false))
  else (s, none)

/-- The watcher state as initialized by the `Watcher` constructor
(before `rerunAll` fires the first run). -/
def emptyState : WatcherState :=
  { clearLogOnNextRun := true
    runVector := 0
    previousFiles := []
    testDependencies := []
    temporaryFiles := []
    touchedFiles := []
    filesWithExclusiveTests := []
    filesWithFailures := []
    dirtyStates := [] }

/-- Repeated batch processing: install each dirty batch and let
`runAfterChanges` process it, threading the watcher state. -/
def processBatches (env : Env) (s : WatcherState)
    (batches : List (List (String × String))) : WatcherState :=
  batches.foldl (fun s batch => (runAfterChanges env { s with dirtyStates := batch }).1) s

/-- FailureLedger states reachable from the initial empty
`filesWithFailures` by the two mutating operations, `countFailure` and
`pruneFailures`. -/
inductive LedgerReachable : List FailureState → Prop
  | init : LedgerReachable []
  | count (s : List FailureState) (file : String) (vector : Nat) :
      LedgerReachable s → LedgerReachable (countFailure s file vector)
  | prune (s : List FailureState) (files : List String) :
      LedgerReachable s → LedgerReachable (pruneFailures s files)

/-- The mutable state captured by the generator-style `plan`
implementation's debounce callback. -/
structure PlanState where
  dirtyPaths : List String
  temporaryFiles : List String
  touchedFiles : List String
deriving DecidableEq, Repr

/-- Pure collaborators of the `plan` debounce callback: the providers,
the glob ignore matcher, the classifier and the optional test-file
filter built from CLI filters. -/
structure PlanEnv where
  providers : List Provider
  isIgnored : String → Bool
  classify : String → ClassifyResult
  patternFilter : Option (List String → List String)

/-- The debounce callback of the generator-style `plan` implementation:
filter the dirty paths (temporary, touched, provider-ignored,
glob-ignored, non-test), clear the dirty, temporary and touched sets,
apply the CLI filter, and signal the surviving test files when any
remain.  Returns the new state and the signalled file list. -/
def planDebounce (env : PlanEnv) (s : PlanState) : PlanState × Option (List String) :=
  if s.dirtyPaths = [] then (s, none)
  else
    let testFiles := s.dirtyPaths.filter (fun path =>
      !s.temporaryFiles.contains path
      && !s.touchedFiles.contains path
      && env.providers.all (fun provider => !provider.ignoreChange path)
      && !env.isIgnored path
      && (env.classify path).isTest)
    let testFiles :=
      match env.patternFilter with
      | some f => f testFiles
      | none => testFiles
    (⟨[], [], []⟩, if 0 < testFiles.length then some testFiles else none)

/-- The flags captured by the generator-style `plan` implementation's
stdin handler: `runAll` and `updateSnapshots`, both reset to `false`
after each yielded instruction. -/
structure PlanStdinState where
  runAll : Bool
  updateSnapshots : Bool
deriving DecidableEq, Repr

/-- The stdin data handler of the generator-style `plan` implementation:
trim and lowercase, or the flags with the `r` and `u` token matches, and
signal the empty (all-tests) file list when either flag is set.  Returns
the new flags and the signalled file list (`none` when nothing is
signalled). -/
def planStdinData (s : PlanStdinState) (data : String) :
    PlanStdinState × Option (List String) :=
  let d := jsToLowerCase (jsTrim data)
  let runAll := s.runAll || (d == "r")
  let updateSnapshots := s.updateSnapshots || (d == "u")
  (⟨runAll, updateSnapshots⟩, if runAll || updateSnapshots then some [] else none)

/-- State of the `Debouncer` class, with timer identity made explicit:
`timer` holds the identity of the scheduled timer, `nextId` is a
freshness counter for timer identities, and `runs` counts the
`watcher.runAfterChanges()` invocations the callbacks performed. -/
structure DebState where
  timer : Option Nat
  again : Bool
  nextId : Nat
  runs : Nat
deriving DecidableEq, Repr

/-- Events of the `Debouncer` model: a `debounce()` call, a `cancel()`
call, and the body of a scheduled timer's callback running (after its
await of the busy promise) with the identity it captured. -/
inductive DebEvent where
  | debounce
  | cancel
  | fire (id : Nat)
deriving DecidableEq, Repr

/-- One step of the `Debouncer` model.  `debounce` with a live timer
only sets `again`; otherwise it schedules a fresh timer.  `cancel`
clears the timer and the `again` flag.  A callback `fire id` first
checks `this.timer !== timer` against its captured identity; on the
re-debounce path it schedules a fresh timer, otherwise it invokes
`runAfterChanges`. -/
def debStep (s : DebState) : DebEvent → DebState
  | .debounce =>
    match s.timer with
    | some _ => { s with again := true }
    | none => { s with timer := some s.nextId, nextId := s.nextId + 1 }
  | .cancel => { s with timer := none, again := false }
  | .fire id =>
    if s.timer = some id then
      if s.again then
        { s with timer := some s.nextId, nextId := s.nextId + 1, again := false }
      else
        { s with timer := none, again := false, runs := s.runs + 1 }
    else s

lemma countFailureAux_not_found (file : String) (states : List FailureState)
    (h : ∀ st ∈ states, st.file ≠ file) : countFailureAux file states = (states, false) := by
  induction states with
  | nil => rfl
  | cons st rest ih =>
    have h1 : st.file ≠ file := h st (List.mem_cons_self _ _)
    simp only [countFailureAux, if_neg h1,
      ih (fun s hs => h s (List.mem_cons_of_mem _ hs))]

lemma countFailureAux_found (file : String) (pre post : List FailureState) (g0 c : Nat)
    (h : ∀ st ∈ pre, st.file ≠ file) :
    countFailureAux file (pre ++ ⟨file, g0, c⟩ :: post) =
      (pre ++ ⟨file, g0, c + 1⟩ :: post, true) := by
  induction pre with
  | nil => simp [countFailureAux]
  | cons st rest ih =>
    have h1 : st.file ≠ file := h st (List.mem_cons_self _ _)
    simp only [List.cons_append, countFailureAux, if_neg h1, List.append_eq,
      ih (fun s hs => h s (List.mem_cons_of_mem _ hs))]

lemma sumPreviousFailures_eq (states : List FailureState) (g : Nat) :
    sumPreviousFailures states g =
      ((states.filter (fun st => decide (st.vector < g))).map FailureState.count).sum := by
  suffices h : ∀ acc, states.foldl
      (fun total state => if state.vector < g then total + state.count else total) acc =
      acc + ((states.filter (fun st => decide (st.vector < g))).map FailureState.count).sum by
    simpa [sumPreviousFailures] using h 0
  induction states with
  | nil => simp
  | cons st rest ih =>
    intro acc
    by_cases hv : st.vector < g
    · simp [hv, ih, Nat.add_assoc]
    · simp [hv, ih]

/-- C5: `countFailure` creates a `count = 1` record at the given
generation when `file` has no record, increments an existing record's
count in place without touching its stored generation otherwise, and
`sumPreviousFailures` sums the counts of exactly the records whose
stored generation is strictly smaller; in particular two failures of one
file at generation 1 give `sumPreviousFailures _ 2 = 2`. -/
theorem countFailure_sumPreviousFailures_spec :
    (∀ (states : List FailureState) (file : String) (g : Nat),
      (∀ st ∈ states, st.file ≠ file) →
      countFailure states file g = states ++ [⟨file, g, 1⟩]) ∧
    (∀ (pre post : List FailureState) (file : String) (g0 c g : Nat),
      (∀ st ∈ pre, st.file ≠ file) →
      countFailure (pre ++ ⟨file, g0, c⟩ :: post) file g =
        pre ++ ⟨file, g0, c + 1⟩ :: post) ∧
    (∀ (states : List FailureState) (g : Nat),
      sumPreviousFailures states g =
        ((states.filter (fun st => decide (st.vector < g))).map FailureState.count).sum) ∧
    sumPreviousFailures (countFailure (countFailure [] "f.js" 1) "f.js" 1) 2 = 2 := by
  refine ⟨?_, ?_, sumPreviousFailures_eq, by decide⟩
  · intro states file g h
    simp [countFailure, countFailureAux_not_found file states h]
  · intro pre post file g0 c g h
    simp [countFailure, countFailureAux_found file pre post g0 c h]

/-- Witness for C5 at concrete inputs. -/
theorem countFailure_sumPreviousFailures_spec_witness :
    countFailure [⟨"other.js", 1, 1⟩] "f.js" 3 = [⟨"other.js", 1, 1⟩, ⟨"f.js", 3, 1⟩] ∧
    countFailure [⟨"f.js", 1, 1⟩] "f.js" 3 = [⟨"f.js", 1, 2⟩] := by
  constructor
  · exact countFailure_sumPreviousFailures_spec.1 [⟨"other.js", 1, 1⟩] "f.js" 3 (by decide)
  · exact countFailure_sumPreviousFailures_spec.2.1 [] [] "f.js" 1 1 3 (by decide)

lemma countFailureAux_map_file (file : String) (states : List FailureState) :
    (countFailureAux file states).1.map FailureState.file = states.map FailureState.file := by
  induction states with
  | nil => rfl
  | cons st rest ih =>
    by_cases h : st.file = file
    · simp [countFailureAux, h]
    · simp [countFailureAux, h, ih]

lemma countFailureAux_found_iff (file : String) (states : List FailureState) :
    (countFailureAux file states).2 = true ↔ file ∈ states.map FailureState.file := by
  induction states with
  | nil => simp [countFailureAux]
  | cons st rest ih =>
    by_cases h : st.file = file
    · simp [countFailureAux, h]
    · simp [countFailureAux, h, ih, Ne.symm h]

lemma countFailure_nodup (states : List FailureState) (file : String) (g : Nat)
    (h : (states.map FailureState.file).Nodup) :
    ((countFailure states file g).map FailureState.file).Nodup := by
  unfold countFailure
  by_cases hf : (countFailureAux file states).2 = true
  · simpa [hf, countFailureAux_map_file] using h
  · have hmem : file ∉ states.map FailureState.file := by
      rw [← countFailureAux_found_iff]
      simpa using hf
    have hb : (countFailureAux file states).2 = false := by simpa using hf
    simp only [countFailure, hb, Bool.false_eq_true, if_false, List.map_append,
      List.map_cons, List.map_nil]
    rw [(List.perm_append_singleton _ _).nodup_iff]
    exact List.nodup_cons.mpr ⟨hmem, h⟩

lemma pruneFailures_nodup (states : List FailureState) (files : List String)
    (h : (states.map FailureState.file).Nodup) :
    ((pruneFailures states files).map FailureState.file).Nodup :=
  h.sublist ((List.filter_sublist states).map FailureState.file)

lemma ledgerReachable_nodup (s : List FailureState) (hs : LedgerReachable s) :
    (s.map FailureState.file).Nodup := by
  induction hs with
  | init => simp
  | count s file vector _ ih => exact countFailure_nodup s file vector ih
  | prune s files _ ih => exact pruneFailures_nodup s files ih

/-- C6 counterexample: recording a second failure for a file at a later
generation increments the existing record in place instead of creating a
second record at the new generation, so records for one file do not
accumulate across generations; the amended theorem proves uniqueness for
every reachable ledger state. -/
theorem ledger_no_second_record :
    countFailure [⟨"a.js", 1, 1⟩] "a.js" 2 = [⟨"a.js", 1, 2⟩] := by decide

/-- C6 amended: reachable FailureLedger states hold at most one record
per file (`countFailure` increments in place and `pruneFailures` only
deletes, so records for one file never coexist across generations), and
pruning a file deletes all of its records regardless of their stored
generation. -/
theorem ledger_uniqueness_and_prune_spec :
    (∀ s, LedgerReachable s → (s.map FailureState.file).Nodup) ∧
    (∀ (s : List FailureState) (files : List String) (st : FailureState),
      st ∈ pruneFailures s files ↔ st ∈ s ∧ st.file ∉ files) := by
  refine ⟨ledgerReachable_nodup, ?_⟩
  intro s files st
  simp [pruneFailures, List.mem_filter]

/-- Witness for C6 amended at a concrete reachable ledger and prune. -/
theorem ledger_uniqueness_and_prune_spec_witness :
    ((countFailure (countFailure [] "a.js" 1) "b.js" 2).map FailureState.file).Nodup ∧
    (⟨"b.js", 2, 1⟩ ∈ pruneFailures [⟨"a.js", 1, 1⟩, ⟨"b.js", 2, 1⟩] ["a.js"] ↔
      (⟨"b.js", 2, 1⟩ : FailureState) ∈ [⟨"a.js", 1, 1⟩, ⟨"b.js", 2, 1⟩] ∧
        "b.js" ∉ ["a.js"]) :=
  ⟨ledger_uniqueness_and_prune_spec.1 _
      (LedgerReachable.count _ "b.js" 2 (LedgerReachable.count [] "a.js" 1 LedgerReachable.init)),
    ledger_uniqueness_and_prune_spec.2 [⟨"a.js", 1, 1⟩, ⟨"b.js", 2, 1⟩] ["a.js"] ⟨"b.js", 2, 1⟩⟩

lemma observeStdin_watcher_cases (s : WatcherState) (data : String) :
    (jsToLowerCase (jsTrim data) = "u" →
      (observeStdinData s data).2 = some (s.previousFiles, true)) ∧
    (jsToLowerCase (jsTrim data) = "r" ∨ jsToLowerCase (jsTrim data) = "rs" →
      (observeStdinData s data).2 = some ([], false)) ∧
    (jsToLowerCase (jsTrim data) ≠ "r" → jsToLowerCase (jsTrim data) ≠ "rs" →
      jsToLowerCase (jsTrim data) ≠ "u" →
      (observeStdinData s data).2 = none) := by
  refine ⟨?_, ?_, ?_⟩
  · intro h
    simp [observeStdinData, h]
  · rintro (h | h) <;> simp [observeStdinData, h]
  · intro h1 h2 h3
    simp [observeStdinData, h1, h2, h3]

/-- C7 counterexample: in the generator-style `plan` implementation
(from the reset flag state), `rs` is not a recognized token and
triggers no dispatch, and `u` signals the unfiltered empty set rather
than the previous run's file list. -/
theorem planStdin_rs_u_counterexample :
    (planStdinData ⟨false, false⟩ "rs").2 = none ∧
    (planStdinData ⟨false, false⟩ "u").2 = some [] := by decide

/-- C7 amended: in the `Watcher` class, `u` dispatches exactly the
previous run's file list with `updateSnapshots = true`, `r` and `rs`
dispatch the unfiltered set with `updateSnapshots = false`, and
unrecognized input dispatches nothing; in the generator-style `plan`
implementation (from the reset flag state), only `r` and `u` are
recognized — `rs` and other tokens signal nothing — and `u` signals the
unfiltered empty set with the snapshot flag set, not the previous run's
file list. -/
theorem stdin_commands_spec :
    (∀ (s : WatcherState) (data : String),
      (jsToLowerCase (jsTrim data) = "u" →
        (observeStdinData s data).2 = some (s.previousFiles, true)) ∧
      (jsToLowerCase (jsTrim data) = "r" ∨ jsToLowerCase (jsTrim data) = "rs" →
        (observeStdinData s data).2 = some ([], false)) ∧
      (jsToLowerCase (jsTrim data) ≠ "r" → jsToLowerCase (jsTrim data) ≠ "rs" →
        jsToLowerCase (jsTrim data) ≠ "u" →
        (observeStdinData s data).2 = none)) ∧
    (∀ data : String,
      (jsToLowerCase (jsTrim data) = "r" →
        planStdinData ⟨false, false⟩ data = (⟨true, false⟩, some [])) ∧
      (jsToLowerCase (jsTrim data) = "u" →
        planStdinData ⟨false, false⟩ data = (⟨false, true⟩, some [])) ∧
      (jsToLowerCase (jsTrim data) ≠ "r" → jsToLowerCase (jsTrim data) ≠ "u" →
        (planStdinData ⟨false, false⟩ data).2 = none)) := by
  refine ⟨observeStdin_watcher_cases, ?_⟩
  intro data
  refine ⟨?_, ?_, ?_⟩
  · intro h
    simp [planStdinData, h]
  · intro h
    simp [planStdinData, h]
  · intro h1 h2
    simp [planStdinData, h1, h2]

/-- Witness for C7 amended at concrete inputs covering both
implementations. -/
theorem stdin_commands_spec_witness :
    (observeStdinData { emptyState with previousFiles := ["p.js"] } " U ").2 =
      some (["p.js"], true) ∧
    (observeStdinData emptyState "rs").2 = some ([], false) ∧
    planStdinData ⟨false, false⟩ "r" = (⟨true, false⟩, some []) ∧
    (planStdinData ⟨false, false⟩ "rs").2 = none := by
  refine ⟨?_, ?_, ?_, ?_⟩
  · exact (stdin_commands_spec.1 { emptyState with previousFiles := ["p.js"] }
      " U ").1 (by decide)
  · exact (stdin_commands_spec.1 emptyState "rs").2.1 (Or.inr (by decide))
  · exact (stdin_commands_spec.2 "r").1 (by decide)
  · exact (stdin_commands_spec.2 "rs").2.2 (by decide) (by decide)

/-- C10: on the very first dispatch (`runVector = 0` when `this.run` is
invoked) the `clearLogOnNextRun` runtime option handed to `api.run` is
`false`, whatever the stored flag. -/
theorem run_firstRun_never_clears (applyFilter : Option (List String → List String))
    (s : WatcherState) (specificFiles : List String) (updateSnapshots : Bool)
    (h : s.runVector = 0) :
    (run applyFilter s specificFiles updateSnapshots).2.2.clearLogOnNextRun = false := by
  simp [run, h]

/-- Witness for C10 at a concrete state with the stored flag set. -/
theorem run_firstRun_never_clears_witness :
    (run none emptyState ["a.js"] false).2.2.clearLogOnNextRun = false :=
  run_firstRun_never_clears none emptyState ["a.js"] false rfl

lemma debStep_ids_ge (n : Nat) (e : DebEvent) (s : DebState)
    (htimer : ∀ id, s.timer = some id → n ≤ id) (hnext : n ≤ s.nextId) :
    (∀ id, (debStep s e).timer = some id → n ≤ id) ∧ n ≤ (debStep s e).nextId := by
  cases e with
  | debounce =>
    cases h : s.timer with
    | none =>
      refine ⟨?_, ?_⟩
      · intro id hid
        simp [debStep, h] at hid
        omega
      · simp [debStep, h]
        omega
    | some t' =>
      refine ⟨?_, ?_⟩
      · intro id hid
        simp [debStep, h] at hid
        exact htimer id (by rw [h, hid])
      · simpa [debStep, h] using hnext
  | cancel =>
    refine ⟨?_, ?_⟩
    · intro id hid
      simp [debStep] at hid
    · simpa [debStep] using hnext
  | fire fid =>
    by_cases h : s.timer = some fid
    · by_cases ha : s.again = true
      · refine ⟨?_, ?_⟩
        · intro id hid
          simp [debStep, h, ha] at hid
          omega
        · simp [debStep, h, ha]
          omega
      · refine ⟨?_, ?_⟩
        · intro id hid
          simp [debStep, h, ha] at hid
        · simpa [debStep, h, ha] using hnext
    · refine ⟨?_, ?_⟩
      · intro id hid
        rw [debStep] at hid
        simp only [if_neg h] at hid
        exact htimer id hid
      · rw [debStep]
        simpa [if_neg h] using hnext

lemma debRun_ids_ge (n : Nat) (evs : List DebEvent) (s : DebState)
    (htimer : ∀ id, s.timer = some id → n ≤ id) (hnext : n ≤ s.nextId) :
    (∀ id, (evs.foldl debStep s).timer = some id → n ≤ id) ∧
      n ≤ (evs.foldl debStep s).nextId := by
  induction evs generalizing s with
  | nil => exact ⟨htimer, hnext⟩
  | cons e rest ih =>
    simp only [List.foldl_cons]
    exact ih (debStep s e) (debStep_ids_ge n e s htimer hnext).1
      (debStep_ids_ge n e s htimer hnext).2

/-- C9: with the scheduled timer `t` live and identities fresh, `cancel`
is idempotent, and once `cancel` has run, a pending callback carrying
identity `t` is a no-op after any further event sequence — the
timer-identity guard stops it even though it already expired. -/
theorem debouncer_cancel_spec (s : DebState) (t : Nat) (evs : List DebEvent)
    (hsched : s.timer = some t)
    (hfresh : ∀ id, s.timer = some id → id < s.nextId) :
    debStep (debStep s DebEvent.cancel) DebEvent.cancel = debStep s DebEvent.cancel ∧
    debStep (evs.foldl debStep (debStep s DebEvent.cancel)) (DebEvent.fire t) =
      evs.foldl debStep (debStep s DebEvent.cancel) := by
  constructor
  · rfl
  · have h1 : t < s.nextId := hfresh t hsched
    have h2 := debRun_ids_ge (t + 1) evs (debStep s DebEvent.cancel)
      (by intro id hid; simp [debStep] at hid)
      (by simp [debStep]; omega)
    have h3 : (evs.foldl debStep (debStep s DebEvent.cancel)).timer ≠ some t := by
      intro hc
      have := h2.1 t hc
      omega
    simp only [debStep] at h3 ⊢
    rw [if_neg h3]

/-- Witness for C9: a concrete scheduled timer, canceled, with a
`debounce` call racing in before the stale callback fires. -/
theorem debouncer_cancel_spec_witness :
    debStep (debStep ⟨some 0, false, 1, 0⟩ DebEvent.cancel) DebEvent.cancel =
      debStep ⟨some 0, false, 1, 0⟩ DebEvent.cancel ∧
    debStep ([DebEvent.debounce].foldl debStep
        (debStep ⟨some 0, false, 1, 0⟩ DebEvent.cancel)) (DebEvent.fire 0) =
      [DebEvent.debounce].foldl debStep (debStep ⟨some 0, false, 1, 0⟩ DebEvent.cancel) :=
  debouncer_cancel_spec ⟨some 0, false, 1, 0⟩ 0 [DebEvent.debounce] rfl
    (by intro id hid; show id < 1; simp at hid; omega)

/-- A provider whose `resolveTestFile` rewrites every test file to
`canon.js` and which ignores no changes. -/
def cexProvider : Provider := ⟨fun _ => false, fun _ => "canon.js"⟩

/-- C2 counterexample: with a provider configured, updating a file's
dependencies to the empty list does not delete the entry — the
provider-resolved path is prepended before the emptiness check, so the
entry is retained as `[canon.js]`. -/
theorem updateTestDependencies_empty_retains_entry :
    updateTestDependencies [cexProvider] [⟨"t.js", ["t.js", "h.js"]⟩] "t.js" [] =
      [⟨"t.js", ["canon.js"]⟩] := by decide

lemma setDependenciesAux_mem (file : String) (ds : List String)
    (deps : List TestDependency) (d : TestDependency)
    (hd : d ∈ (setDependenciesAux file ds deps).1) :
    d ∈ deps ∨ d.dependencies = ds := by
  induction deps with
  | nil => simp [setDependenciesAux] at hd
  | cons dep rest ih =>
    by_cases h : dep.file = file
    · simp only [setDependenciesAux, if_pos h, List.mem_cons] at hd
      rcases hd with h1 | h1
      · right
        rw [h1]
      · left
        exact List.mem_cons_of_mem _ h1
    · simp only [setDependenciesAux, if_neg h, List.mem_cons] at hd
      rcases hd with h1 | h1
      · left
        simp [h1]
      · rcases ih h1 with h2 | h2
        · left
          exact List.mem_cons_of_mem _ h2
        · right
          exact h2

lemma updateTestDependencies_nonempty (providers : List Provider)
    (deps : List TestDependency) (file : String) (dependencies : List String)
    (h : ∀ d ∈ deps, d.dependencies ≠ []) :
    ∀ d ∈ updateTestDependencies providers deps file dependencies, d.dependencies ≠ [] := by
  intro d hd
  unfold updateTestDependencies at hd
  by_cases hn : (resolveDependencies providers file dependencies).length = 0
  · simp only [hn, if_pos] at hd
    exact h d (List.mem_of_mem_filter hd)
  · have hne : resolveDependencies providers file dependencies ≠ [] := by
      intro hc
      exact hn (by simp [hc])
    simp only [hn, if_neg, if_false] at hd
    by_cases hb : (setDependenciesAux file (resolveDependencies providers file dependencies)
        deps).2 = true
    · simp only [hb, if_pos] at hd
      rcases setDependenciesAux_mem _ _ _ _ hd with h1 | h1
      · exact h d h1
      · rw [h1]
        exact hne
    · simp only [hb, if_false] at hd
      rcases List.mem_append.mp hd with h1 | h1
      · exact h d h1
      · have : d = ⟨file, resolveDependencies providers file dependencies⟩ := by
          simpa using h1
        rw [this]
        exact hne

/-- C2 amended: with no providers configured, updating a file's
dependencies to the empty list deletes its entry, so the file has no
tracked dependencies afterwards; and for any providers, an entry with an
empty dependency set is never retained. -/
theorem updateTestDependencies_empty_spec :
    (∀ (deps : List TestDependency) (file : String),
      updateTestDependencies [] deps file [] =
        deps.filter (fun dep => dep.file ≠ file)) ∧
    (∀ (deps : List TestDependency) (file : String),
      ∀ d ∈ updateTestDependencies [] deps file [], d.file ≠ file) ∧
    (∀ (providers : List Provider) (deps : List TestDependency) (file : String)
      (dependencies : List String),
      (∀ d ∈ deps, d.dependencies ≠ []) →
      ∀ d ∈ updateTestDependencies providers deps file dependencies, d.dependencies ≠ []) := by
  refine ⟨fun deps file => rfl, ?_, updateTestDependencies_nonempty⟩
  intro deps file d hd
  have : d ∈ deps.filter (fun dep => dep.file ≠ file) := hd
  simpa using (List.mem_filter.mp this).2

/-- Witness for C2 amended at concrete inputs. -/
theorem updateTestDependencies_empty_spec_witness :
    updateTestDependencies [] [⟨"t.js", ["t.js", "h.js"]⟩] "t.js" [] = [] ∧
    (∀ d ∈ updateTestDependencies [cexProvider] [⟨"t.js", ["t.js"]⟩] "t.js" [],
      d.dependencies ≠ []) := by
  constructor
  · have h := updateTestDependencies_empty_spec.1 [⟨"t.js", ["t.js", "h.js"]⟩] "t.js"
    rw [h]
    decide
  · exact updateTestDependencies_empty_spec.2.2 [cexProvider] [⟨"t.js", ["t.js"]⟩]
      "t.js" [] (by decide)

lemma reconcile_cover_iff (exclusive specific : List String)
    (hndS : specific.Nodup) (hndE : exclusive.Nodup) :
    (specific.filter (fun f => exclusive.contains f)).length = exclusive.length ↔
      ∀ f ∈ exclusive, f ∈ specific := by
  have hFnd : (specific.filter (fun f => exclusive.contains f)).Nodup := hndS.filter _
  have hFsub : ∀ x ∈ specific.filter (fun f => exclusive.contains f), x ∈ exclusive := by
    intro x hx
    have h2 := (List.mem_filter.mp hx).2
    exact List.elem_iff.mp h2
  have hcardF := List.toFinset_card_of_nodup hFnd
  have hcardE := List.toFinset_card_of_nodup hndE
  have hsub : (specific.filter (fun f => exclusive.contains f)).toFinset ⊆
      exclusive.toFinset := by
    intro x hx
    rw [List.mem_toFinset] at hx ⊢
    exact hFsub x hx
  constructor
  · intro hlen
    have heq : exclusive.toFinset = (specific.filter (fun f => exclusive.contains f)).toFinset :=
      (Finset.eq_of_subset_of_card_le hsub (by omega)).symm
    intro f hf
    have h1 : f ∈ (specific.filter (fun f => exclusive.contains f)).toFinset := by
      rw [← heq]
      exact List.mem_toFinset.mpr hf
    exact (List.mem_filter.mp (List.mem_toFinset.mp h1)).1
  · intro hcov
    have heq : (specific.filter (fun f => exclusive.contains f)).toFinset =
        exclusive.toFinset := by
      apply Finset.Subset.antisymm hsub
      intro x hx
      rw [List.mem_toFinset] at hx ⊢
      exact List.mem_filter.mpr ⟨hcov x hx, List.elem_iff.mpr hx⟩
    have hcards := congrArg Finset.card heq
    omega

lemma reconcileExclusive_not_cover (exclusive specific : List String)
    (hndS : specific.Nodup) (hndE : exclusive.Nodup)
    (h : ¬ ∀ f ∈ exclusive, f ∈ specific) :
    reconcileExclusive exclusive specific =
      (exclusive ++ specific.filter (fun f => !exclusive.contains f), true) := by
  have hlen : (specific.filter (fun f => exclusive.contains f)).length ≠ exclusive.length :=
    fun hc => h ((reconcile_cover_iff exclusive specific hndS hndE).mp hc)
  have hb : ((specific.filter (fun f => exclusive.contains f)).length !=
      exclusive.length) = true := by
    simpa using hlen
  have hfc : specific.filter
      (fun f => !((specific.filter (fun f => exclusive.contains f)).contains f)) =
      specific.filter (fun f => !exclusive.contains f) := by
    apply List.filter_congr
    intro x hx
    by_cases hC : x ∈ exclusive
    · have h1 : (specific.filter (fun f => exclusive.contains f)).contains x = true :=
        List.elem_iff.mpr (List.mem_filter.mpr ⟨hx, List.elem_iff.mpr hC⟩)
      have h2 : exclusive.contains x = true := List.elem_iff.mpr hC
      rw [h1, h2]
    · have h1 : (specific.filter (fun f => exclusive.contains f)).contains x = false := by
        rw [Bool.eq_false_iff]
        intro hc
        exact hC (List.elem_iff.mp ((List.mem_filter.mp (List.elem_iff.mp hc)).2))
      have h2 : exclusive.contains x = false := by
        rw [Bool.eq_false_iff]
        intro hc
        exact hC (List.elem_iff.mp hc)
      rw [h1, h2]
  simp only [reconcileExclusive, hb, if_true, hfc]

lemma reconcileExclusive_cover (exclusive specific : List String)
    (hndS : specific.Nodup) (hndE : exclusive.Nodup)
    (h : ∀ f ∈ exclusive, f ∈ specific) :
    reconcileExclusive exclusive specific = (specific, false) := by
  have hlen := (reconcile_cover_iff exclusive specific hndS hndE).mpr h
  have hb : ((specific.filter (fun f => exclusive.contains f)).length !=
      exclusive.length) = false := by
    simpa using hlen
  simp only [reconcileExclusive, hb, Bool.false_eq_true, if_false]

lemma run_projections (s : WatcherState) (specificFiles : List String) (us : Bool) :
    (run none s specificFiles us).2.1 =
      (if 0 < specificFiles.length then
        (reconcileExclusive s.filesWithExclusiveTests specificFiles).1
      else specificFiles) ∧
    (run none s specificFiles us).2.2.runOnlyExclusive =
      (if 0 < specificFiles.length then
        (reconcileExclusive s.filesWithExclusiveTests specificFiles).2
      else false) := by
  by_cases h : 0 < s.runVector <;> by_cases h2 : 0 < specificFiles.length <;>
    simp [run, h, h2]

/-- C3: with no CLI filters, a dispatch for a non-empty requested set
that does not cover the exclusive set runs the exclusive files plus the
remaining requested files with `runOnlyExclusive = true`; a dispatch for
an empty or covering set runs the requested files unchanged with
`runOnlyExclusive = false`. -/
theorem run_exclusivity_spec (s : WatcherState) (specificFiles : List String)
    (updateSnapshots : Bool) (hndS : specificFiles.Nodup)
    (hndE : s.filesWithExclusiveTests.Nodup) :
    ((specificFiles ≠ [] → ¬(∀ f ∈ s.filesWithExclusiveTests, f ∈ specificFiles) →
      (run none s specificFiles updateSnapshots).2.1 =
        s.filesWithExclusiveTests ++
          specificFiles.filter (fun f => !s.filesWithExclusiveTests.contains f) ∧
      (run none s specificFiles updateSnapshots).2.2.runOnlyExclusive = true)) ∧
    ((specificFiles = [] ∨ (∀ f ∈ s.filesWithExclusiveTests, f ∈ specificFiles)) →
      (run none s specificFiles updateSnapshots).2.1 = specificFiles ∧
      (run none s specificFiles updateSnapshots).2.2.runOnlyExclusive = false) := by
  obtain ⟨hp1, hp2⟩ := run_projections s specificFiles updateSnapshots
  constructor
  · intro hne hcov
    have hlen : 0 < specificFiles.length := List.length_pos.mpr hne
    have hr := reconcileExclusive_not_cover s.filesWithExclusiveTests specificFiles
      hndS hndE hcov
    rw [hp1, hp2, if_pos hlen, if_pos hlen, hr]
    exact ⟨rfl, rfl⟩
  · rintro (h | h)
    · subst h
      simpa using ⟨hp1, hp2⟩
    · by_cases hlen : 0 < specificFiles.length
      · have hr := reconcileExclusive_cover s.filesWithExclusiveTests specificFiles
          hndS hndE h
        rw [hp1, hp2, if_pos hlen, if_pos hlen, hr]
        exact ⟨rfl, rfl⟩
      · rw [hp1, hp2, if_neg hlen, if_neg hlen]
        exact ⟨rfl, rfl⟩

/-- Witness for C3: `A` exclusive, dispatch requested for `{B}` gives
the effective set `{A, B}` with `runOnlyExclusive = true`; a covering
request is left unchanged. -/
theorem run_exclusivity_spec_witness :
    ((run none { emptyState with filesWithExclusiveTests := ["A"] } ["B"] false).2.1 =
      ["A", "B"] ∧
    (run none { emptyState with filesWithExclusiveTests := ["A"] }
      ["B"] false).2.2.runOnlyExclusive = true) ∧
    ((run none { emptyState with filesWithExclusiveTests := ["A"] } ["A"] false).2.1 =
      ["A"] ∧
    (run none { emptyState with filesWithExclusiveTests := ["A"] }
      ["A"] false).2.2.runOnlyExclusive = false) := by
  constructor
  · have h := (run_exclusivity_spec { emptyState with filesWithExclusiveTests := ["A"] }
      ["B"] false (by decide) (by decide)).1 (by decide) (by decide)
    exact ⟨by rw [h.1]; decide, h.2⟩
  · exact (run_exclusivity_spec { emptyState with filesWithExclusiveTests := ["A"] }
      ["A"] false (by decide) (by decide)).2 (Or.inr (by decide))

lemma updateTestDependencies_nil_empty (deps : List TestDependency) (t : String) :
    updateTestDependencies [] deps t [] = deps.filter (fun dep => dep.file ≠ t) := rfl

lemma cleanUnlinkedTests_cons (providers : List Provider) (s : WatcherState)
    (u : String) (rest : List String) :
    cleanUnlinkedTests providers s (u :: rest) =
      cleanUnlinkedTests providers
        { s with
          testDependencies := updateTestDependencies providers s.testDependencies u [],
          filesWithExclusiveTests := updateExclusivity s.filesWithExclusiveTests u false,
          filesWithFailures := pruneFailures s.filesWithFailures [u] } rest := rfl

lemma cleanUnlinkedTests_preserves (s : WatcherState) (l : List String) (t : String)
    (h1 : ∀ d ∈ s.testDependencies, d.file ≠ t)
    (h2 : t ∉ s.filesWithExclusiveTests)
    (h3 : ∀ st ∈ s.filesWithFailures, st.file ≠ t) :
    (∀ d ∈ (cleanUnlinkedTests [] s l).testDependencies, d.file ≠ t) ∧
    t ∉ (cleanUnlinkedTests [] s l).filesWithExclusiveTests ∧
    (∀ st ∈ (cleanUnlinkedTests [] s l).filesWithFailures, st.file ≠ t) := by
  induction l generalizing s with
  | nil => exact ⟨h1, h2, h3⟩
  | cons u rest ih =>
    rw [cleanUnlinkedTests_cons]
    apply ih
    · intro d hd
      rw [updateTestDependencies_nil_empty] at hd
      exact h1 d (List.mem_of_mem_filter hd)
    · intro hc
      exact h2 (List.mem_of_mem_erase hc)
    · intro st hst
      exact h3 st (List.mem_of_mem_filter hst)

lemma cleanUnlinkedTests_nodup (s : WatcherState) (l : List String)
    (hnd : s.filesWithExclusiveTests.Nodup) :
    (cleanUnlinkedTests [] s l).filesWithExclusiveTests.Nodup := by
  induction l generalizing s with
  | nil => exact hnd
  | cons u rest ih =>
    rw [cleanUnlinkedTests_cons]
    exact ih _ (hnd.erase u)

lemma cleanUnlinkedTests_removes (s : WatcherState) (unlinked : List String)
    (hnd : s.filesWithExclusiveTests.Nodup) :
    ∀ t ∈ unlinked,
      (∀ d ∈ (cleanUnlinkedTests [] s unlinked).testDependencies, d.file ≠ t) ∧
      t ∉ (cleanUnlinkedTests [] s unlinked).filesWithExclusiveTests ∧
      (∀ st ∈ (cleanUnlinkedTests [] s unlinked).filesWithFailures, st.file ≠ t) := by
  induction unlinked generalizing s with
  | nil => simp
  | cons u rest ih =>
    intro t ht
    rw [cleanUnlinkedTests_cons]
    rcases List.mem_cons.mp ht with rfl | ht'
    · apply cleanUnlinkedTests_preserves
      · intro d hd
        rw [updateTestDependencies_nil_empty] at hd
        simpa using (List.mem_filter.mp hd).2
      · intro hc
        rw [show updateExclusivity s.filesWithExclusiveTests t false =
          s.filesWithExclusiveTests.erase t from rfl] at hc
        exact absurd rfl ((hnd.mem_erase_iff.mp hc).1)
      · intro st hst
        have := (List.mem_filter.mp hst).2
        simpa using this
    · exact ih _ (hnd.erase u) t ht'

lemma partitionDirty_all_unlink (classify : String → ClassifyResult)
    (dirtyStates : List (String × String)) (paths : List String)
    (h : ∀ p ∈ paths, (classify p).isIgnoredByWatcher = false ∧
      (classify p).isTest = true ∧ lookupDirtyState dirtyStates p = some "unlink") :
    partitionDirty classify dirtyStates paths = ([], [], paths) := by
  induction paths with
  | nil => rfl
  | cons p rest ih =>
    obtain ⟨h1, h2, h3⟩ := h p (List.mem_cons_self _ _)
    simp [partitionDirty, ih (fun q hq => h q (List.mem_cons_of_mem _ hq)), h1, h2, h3]

lemma runAfterChanges_fst (env : Env) (s : WatcherState) :
    (runAfterChanges env s).1 = postCleanState env s := by
  simp only [runAfterChanges]
  split
  · rfl
  · split
    · rfl
    · split <;> rfl

/-- C4 counterexample: a batch of two deleted test files, one of them
ignored by the watcher, leaves only deleted tests after classification —
yet a run for the unfiltered all-tests set is dispatched, because the
no-run check compares against the pre-classification surviving count. -/
theorem runAfterChanges_deleted_only_counterexample :
    classifiedPartition ⟨fun p => ⟨true, p = "b.t"⟩, []⟩
        { emptyState with dirtyStates := [("a.t", "unlink"), ("b.t", "unlink")] } =
      ([], [], ["a.t"]) ∧
    (runAfterChanges ⟨fun p => ⟨true, p = "b.t"⟩, []⟩
        { emptyState with dirtyStates := [("a.t", "unlink"), ("b.t", "unlink")] }).2 =
      some [] := by decide

lemma cleanUnlinkedTests_preserves_excl (providers : List Provider) (s : WatcherState)
    (l : List String) (t : String)
    (h2 : t ∉ s.filesWithExclusiveTests)
    (h3 : ∀ st ∈ s.filesWithFailures, st.file ≠ t) :
    t ∉ (cleanUnlinkedTests providers s l).filesWithExclusiveTests ∧
    (∀ st ∈ (cleanUnlinkedTests providers s l).filesWithFailures, st.file ≠ t) := by
  induction l generalizing s with
  | nil => exact ⟨h2, h3⟩
  | cons u rest ih =>
    rw [cleanUnlinkedTests_cons]
    apply ih
    · intro hc
      exact h2 (List.mem_of_mem_erase hc)
    · intro st hst
      exact h3 st (List.mem_of_mem_filter hst)

lemma cleanUnlinkedTests_removes_excl (providers : List Provider) (s : WatcherState)
    (unlinked : List String) (hnd : s.filesWithExclusiveTests.Nodup) :
    ∀ t ∈ unlinked,
      t ∉ (cleanUnlinkedTests providers s unlinked).filesWithExclusiveTests ∧
      (∀ st ∈ (cleanUnlinkedTests providers s unlinked).filesWithFailures, st.file ≠ t) := by
  induction unlinked generalizing s with
  | nil => simp
  | cons u rest ih =>
    intro t ht
    rw [cleanUnlinkedTests_cons]
    rcases List.mem_cons.mp ht with rfl | ht'
    · apply cleanUnlinkedTests_preserves_excl
      · intro hc
        rw [show updateExclusivity s.filesWithExclusiveTests t false =
          s.filesWithExclusiveTests.erase t from rfl] at hc
        exact absurd rfl ((hnd.mem_erase_iff.mp hc).1)
      · intro st hst
        simpa using (List.mem_filter.mp hst).2
    · exact ih _ (hnd.erase u) t ht'

/-- C4 amended: when every surviving dirty path is a non-ignored deleted
test file (so the deleted tests account for the whole post-suppression
batch) and the exclusive set is duplicate-free, no run is dispatched and
the deleted files' exclusivity membership and failure records are
removed; their dependency entries are removed too when no providers are
configured (with a provider, the entry is retained holding the
provider-resolved canonical path, see the C2 counterexample). -/
theorem runAfterChanges_deleted_only_spec (env : Env) (s : WatcherState)
    (hnd : s.filesWithExclusiveTests.Nodup)
    (hall : ∀ p ∈ survivingPaths env s,
      (env.classify p).isIgnoredByWatcher = false ∧ (env.classify p).isTest = true ∧
      lookupDirtyState s.dirtyStates p = some "unlink") :
    (runAfterChanges env s).2 = none ∧
    (∀ t ∈ survivingPaths env s,
      t ∉ (runAfterChanges env s).1.filesWithExclusiveTests ∧
      (∀ st ∈ (runAfterChanges env s).1.filesWithFailures, st.file ≠ t)) ∧
    (env.providers = [] → ∀ t ∈ survivingPaths env s,
      ∀ d ∈ (runAfterChanges env s).1.testDependencies, d.file ≠ t) := by
  have hpart : classifiedPartition env s = ([], [], survivingPaths env s) :=
    partitionDirty_all_unlink env.classify s.dirtyStates (survivingPaths env s) hall
  refine ⟨?_, ?_, ?_⟩
  · simp [runAfterChanges, hpart]
  · intro t ht
    rw [runAfterChanges_fst]
    unfold postCleanState
    rw [hpart]
    exact cleanUnlinkedTests_removes_excl env.providers
      { s with dirtyStates := [], touchedFiles := remainingTouched s }
      (survivingPaths env s) hnd t ht
  · intro hprov t ht
    rw [runAfterChanges_fst]
    unfold postCleanState
    rw [hpart, hprov]
    exact (cleanUnlinkedTests_removes
      { s with dirtyStates := [], touchedFiles := remainingTouched s }
      (survivingPaths env s) hnd t ht).1

/-- Witness for C4 amended: one deleted tracked test file in a
provider-configured session; no run fires and its exclusivity membership
is gone. -/
theorem runAfterChanges_deleted_only_spec_witness :
    (runAfterChanges ⟨fun _ => ⟨true, false⟩, [cexProvider]⟩
      { emptyState with
        dirtyStates := [("a.t", "unlink")],
        testDependencies := [⟨"a.t", ["a.t"]⟩],
        filesWithExclusiveTests := ["a.t"],
        filesWithFailures := [⟨"a.t", 1, 2⟩] }).2 = none ∧
    "a.t" ∉ (runAfterChanges ⟨fun _ => ⟨true, false⟩, [cexProvider]⟩
      { emptyState with
        dirtyStates := [("a.t", "unlink")],
        testDependencies := [⟨"a.t", ["a.t"]⟩],
        filesWithExclusiveTests := ["a.t"],
        filesWithFailures := [⟨"a.t", 1, 2⟩] }).1.filesWithExclusiveTests := by
  have h := runAfterChanges_deleted_only_spec ⟨fun _ => ⟨true, false⟩, [cexProvider]⟩
    { emptyState with
      dirtyStates := [("a.t", "unlink")],
      testDependencies := [⟨"a.t", ["a.t"]⟩],
      filesWithExclusiveTests := ["a.t"],
      filesWithFailures := [⟨"a.t", 1, 2⟩] } (by decide) (by decide)
  exact ⟨h.1, (h.2.1 "a.t" (by decide)).1⟩

lemma cleanUnlinkedTests_temporary (providers : List Provider) (s : WatcherState)
    (l : List String) :
    (cleanUnlinkedTests providers s l).temporaryFiles = s.temporaryFiles := by
  induction l generalizing s with
  | nil => rfl
  | cons u rest ih =>
    rw [cleanUnlinkedTests_cons]
    exact ih _

lemma runAfterChanges_temporary (env : Env) (s : WatcherState) :
    (runAfterChanges env s).1.temporaryFiles = s.temporaryFiles := by
  rw [runAfterChanges_fst]
  unfold postCleanState
  rw [cleanUnlinkedTests_temporary]

lemma consumeDirtyPaths_temp_not_mem (temporary touched paths : List String) (p : String)
    (hp : p ∈ temporary) : p ∉ (consumeDirtyPaths temporary touched paths).2 := by
  induction paths generalizing touched with
  | nil => simp [consumeDirtyPaths]
  | cons q rest ih =>
    by_cases h1 : q ∈ touched
    · simpa [consumeDirtyPaths, h1] using ih (touched.erase q)
    · by_cases h2 : q ∈ temporary
      · simpa [consumeDirtyPaths, h1, h2] using ih touched
      · have hq : p ≠ q := fun hc => h2 (hc ▸ hp)
        simp [consumeDirtyPaths, h1, h2, ih touched, hq]

lemma applyProviderIgnores_subset (providers : List Provider) (paths : List String)
    (x : String) (hx : x ∈ applyProviderIgnores providers paths) : x ∈ paths := by
  induction providers generalizing paths with
  | nil => exact hx
  | cons pr rest ih =>
    have h1 : x ∈ paths.filter (fun path => !pr.ignoreChange path) := ih _ hx
    exact List.mem_of_mem_filter h1

lemma survivingPaths_temp_not_mem (env : Env) (s : WatcherState) (p : String)
    (hp : p ∈ s.temporaryFiles) : p ∉ survivingPaths env s := by
  intro hc
  exact consumeDirtyPaths_temp_not_mem s.temporaryFiles s.touchedFiles
    (s.dirtyStates.map Prod.fst) p hp (applyProviderIgnores_subset env.providers _ p hc)

/-- C8 counterexample: the generator-style `plan` implementation's
debounce callback clears the temporary-file set wholesale after
processing a non-empty batch, so a recorded temporary path does not
remain tracked and later batches no longer suppress it. -/
theorem planDebounce_clears_temporary :
    "tmp.js" ∈ (⟨["x.js"], ["tmp.js"], []⟩ : PlanState).temporaryFiles ∧
    (planDebounce ⟨[], fun _ => false, fun _ => ⟨true, false⟩, none⟩
      ⟨["x.js"], ["tmp.js"], []⟩).2 = some ["x.js"] ∧
    (planDebounce ⟨[], fun _ => false, fun _ => ⟨true, false⟩, none⟩
      ⟨["x.js"], ["tmp.js"], []⟩).1.temporaryFiles = [] := by decide

/-- C8 amended: in the `Watcher` class implementation, batch processing
(`runAfterChanges`) never removes a temporary path — it survives any
sequence of processed batches and is suppressed from the surviving dirty
paths of every one of them; the generator-style `plan` callback instead
clears the set after each processed batch. -/
theorem temporary_suppression_spec (env : Env) :
    (∀ (s : WatcherState) (p : String), p ∈ s.temporaryFiles →
      (runAfterChanges env s).1.temporaryFiles = s.temporaryFiles ∧
      p ∉ survivingPaths env s) ∧
    (∀ (s : WatcherState) (p : String) (batches : List (List (String × String))),
      p ∈ s.temporaryFiles →
      p ∈ (processBatches env s batches).temporaryFiles ∧
      ∀ batch, p ∉ survivingPaths env
        { processBatches env s batches with dirtyStates := batch }) := by
  have hbatch : ∀ (s : WatcherState) (p : String)
      (batches : List (List (String × String))), p ∈ s.temporaryFiles →
      p ∈ (processBatches env s batches).temporaryFiles := by
    intro s p batches
    induction batches generalizing s with
    | nil => exact fun h => h
    | cons batch rest ih =>
      intro h
      show p ∈ (processBatches env
        (runAfterChanges env { s with dirtyStates := batch }).1 rest).temporaryFiles
      apply ih
      rw [runAfterChanges_temporary]
      exact h
  refine ⟨?_, ?_⟩
  · intro s p hp
    exact ⟨runAfterChanges_temporary env s, survivingPaths_temp_not_mem env s p hp⟩
  · intro s p batches hp
    refine ⟨hbatch s p batches hp, ?_⟩
    intro batch
    exact survivingPaths_temp_not_mem env _ p (hbatch s p batches hp)

/-- Witness for C8 amended: a temporary path survives two processed
batches, one of which names it. -/
theorem temporary_suppression_spec_witness :
    "tmp.js" ∈ (processBatches ⟨fun _ => ⟨true, false⟩, []⟩
      { emptyState with temporaryFiles := ["tmp.js"] }
      [[("tmp.js", "change")], [("x.js", "change")]]).temporaryFiles :=
  ((temporary_suppression_spec ⟨fun _ => ⟨true, false⟩, []⟩).2
    { emptyState with temporaryFiles := ["tmp.js"] } "tmp.js"
    [[("tmp.js", "change")], [("x.js", "change")]] (by decide)).1

lemma partitionDirty_length_le (classify : String → ClassifyResult)
    (dirtyStates : List (String × String)) (paths : List String) :
    (partitionDirty classify dirtyStates paths).1.length +
      (partitionDirty classify dirtyStates paths).2.1.length +
      (partitionDirty classify dirtyStates paths).2.2.length ≤ paths.length := by
  induction paths with
  | nil => simp [partitionDirty]
  | cons p rest ih =>
    by_cases h1 : (classify p).isIgnoredByWatcher = true
    · simp only [partitionDirty, if_pos h1, List.length_cons]
      omega
    · by_cases h2 : (classify p).isTest = true
      · by_cases h3 : lookupDirtyState dirtyStates p = some "unlink"
        · simp only [partitionDirty, if_neg h1, if_pos h2, if_pos h3, List.length_cons]
          omega
        · simp only [partitionDirty, if_neg h1, if_pos h2, if_neg h3, List.length_cons]
          omega
      · simp only [partitionDirty, if_neg h1, if_neg h2, List.length_cons]
        omega

lemma classifiedPartition_length_le (env : Env) (s : WatcherState) :
    (classifiedPartition env s).1.length + (classifiedPartition env s).2.1.length +
      (classifiedPartition env s).2.2.length ≤ (survivingPaths env s).length :=
  partitionDirty_length_le env.classify s.dirtyStates (survivingPaths env s)

lemma dedupFirst_go_mem (l acc : List String) (x : String) :
    x ∈ l.foldl (fun acc x => if x ∈ acc then acc else acc ++ [x]) acc ↔
      x ∈ acc ∨ x ∈ l := by
  induction l generalizing acc with
  | nil => simp
  | cons y rest ih =>
    by_cases h : y ∈ acc
    · rw [List.foldl_cons, if_pos h, ih]
      simp only [List.mem_cons]
      constructor
      · tauto
      · rintro (hx | rfl | hx) <;> tauto
    · rw [List.foldl_cons, if_neg h, ih]
      simp only [List.mem_append, List.mem_singleton, List.mem_cons]
      tauto

lemma dedupFirst_mem (l : List String) (x : String) :
    x ∈ dedupFirst l ↔ x ∈ l := by
  simpa [dedupFirst] using dedupFirst_go_mem l [] x

lemma dedupFirst_go_nodup (l acc : List String) (hacc : acc.Nodup) :
    (l.foldl (fun acc x => if x ∈ acc then acc else acc ++ [x]) acc).Nodup := by
  induction l generalizing acc with
  | nil => exact hacc
  | cons y rest ih =>
    by_cases h : y ∈ acc
    · rw [List.foldl_cons, if_pos h]
      exact ih acc hacc
    · rw [List.foldl_cons, if_neg h]
      apply ih
      rw [(List.perm_append_singleton y acc).nodup_iff]
      exact List.nodup_cons.mpr ⟨h, hacc⟩

lemma dedupFirst_nodup (l : List String) : (dedupFirst l).Nodup :=
  dedupFirst_go_nodup l [] List.nodup_nil

lemma dependentsLists_all_traced (deps : List TestDependency) (helpers : List String)
    (h : ∀ p ∈ helpers, ∃ dep ∈ deps, dep.contains p = true) :
    dependentsLists deps helpers =
      helpers.map (fun p =>
        (deps.filter (fun dep => dep.contains p)).map TestDependency.file) := by
  unfold dependentsLists
  apply List.filter_eq_self.mpr
  intro tests htests
  rcases List.mem_map.mp htests with ⟨p, hp, rfl⟩
  rcases h p hp with ⟨dep, hdep, hc⟩
  have hmem : dep.file ∈ (deps.filter (fun dep => dep.contains p)).map TestDependency.file :=
    List.mem_map.mpr ⟨dep, List.mem_filter.mpr ⟨hdep, hc⟩, rfl⟩
  simpa using List.length_pos.mpr (List.ne_nil_of_mem hmem)

lemma length_filter_lt_of_mem {α : Type} (l : List α) (q : α → Bool) (x : α)
    (hx : x ∈ l) (hqx : q x = false) : (l.filter q).length < l.length := by
  have hle : (l.filter q).length ≤ l.length := (List.filter_sublist l).length_le
  rcases Nat.lt_or_ge (l.filter q).length l.length with h | h
  · exact h
  · exfalso
    have heq : l.filter q = l :=
      (List.filter_sublist l).eq_of_length (le_antisymm hle h)
    have := List.filter_eq_self.mp heq x hx
    rw [hqx] at this
    exact Bool.false_ne_true this

lemma dependentsLists_untraced (deps : List TestDependency) (helpers : List String)
    (p : String) (hp : p ∈ helpers)
    (h : ∀ dep ∈ deps, dep.contains p = false) :
    (dependentsLists deps helpers).length ≠ helpers.length := by
  have hnil : (deps.filter (fun dep => dep.contains p)).map TestDependency.file = [] := by
    rw [List.filter_eq_nil_iff.mpr (by intro dep hdep; simp [h dep hdep])]
    rfl
  have hmem : (deps.filter (fun dep => dep.contains p)).map TestDependency.file ∈
      helpers.map (fun p =>
        (deps.filter (fun dep => dep.contains p)).map TestDependency.file) :=
    List.mem_map.mpr ⟨p, hp, rfl⟩
  have hzero : (decide (0 < ((deps.filter (fun dep => dep.contains p)).map
      TestDependency.file).length)) = false := by
    rw [hnil]
    rfl
  have hlt := length_filter_lt_of_mem _ (fun tests => decide (0 < tests.length)) _ hmem hzero
  unfold dependentsLists
  rw [List.length_map helpers] at hlt
  omega

/-- C1: for a processed batch whose surviving set keeps at least one
helper-or-source path, if every such path has at least one recorded
dependent then the dispatched run targets exactly the deduplicated union
of the changed test files and all discovered dependents; if any such
path has zero recorded dependents, the dispatched run targets the
unfiltered (empty, all-tests) file set. -/
theorem runAfterChanges_helper_dependents_spec (env : Env) (s : WatcherState)
    (helpers changed unlinked : List String)
    (hpart : classifiedPartition env s = (helpers, changed, unlinked))
    (hhelpers : helpers ≠ []) :
    ((∀ p ∈ helpers, ∃ dep ∈ (postCleanState env s).testDependencies,
        dep.contains p = true) →
      ∃ L, (runAfterChanges env s).2 = some L ∧ L.Nodup ∧
        ∀ x, x ∈ L ↔ (x ∈ changed ∨
          ∃ p ∈ helpers, ∃ dep ∈ (postCleanState env s).testDependencies,
            dep.contains p = true ∧ dep.file = x)) ∧
    ((∃ p ∈ helpers, ∀ dep ∈ (postCleanState env s).testDependencies,
        dep.contains p = false) →
      (runAfterChanges env s).2 = some []) := by
  have hsum := classifiedPartition_length_le env s
  rw [hpart] at hsum
  simp only at hsum
  have hpos : 0 < helpers.length := List.length_pos.mpr hhelpers
  have hcond1 : ¬(unlinked.length = (survivingPaths env s).length) := by omega
  constructor
  · intro htr
    have hdl := dependentsLists_all_traced (postCleanState env s).testDependencies
      helpers htr
    refine ⟨dedupFirst (changed ++ (helpers.map (fun p =>
        ((postCleanState env s).testDependencies.filter
          (fun dep => dep.contains p)).map TestDependency.file)).flatten),
      ?_, dedupFirst_nodup _, ?_⟩
    · simp only [runAfterChanges, hpart, if_neg hcond1, if_neg hhelpers, hdl,
        List.length_map, if_pos]
    · intro x
      rw [dedupFirst_mem]
      simp only [List.mem_append, List.mem_flatten, List.mem_map, List.mem_filter]
      constructor
      · rintro (hx | ⟨l, ⟨p, hp, rfl⟩, hxl⟩)
        · exact Or.inl hx
        · rcases List.mem_map.mp hxl with ⟨dep, hdep, rfl⟩
          exact Or.inr ⟨p, hp, dep, (List.mem_filter.mp hdep).1,
            (List.mem_filter.mp hdep).2, rfl⟩
      · rintro (hx | ⟨p, hp, dep, hdep, hc, rfl⟩)
        · exact Or.inl hx
        · exact Or.inr ⟨(((postCleanState env s).testDependencies.filter
              (fun dep => dep.contains p)).map TestDependency.file),
            ⟨p, hp, rfl⟩,
            List.mem_map.mpr ⟨dep, List.mem_filter.mpr ⟨hdep, hc⟩, rfl⟩⟩
  · rintro ⟨p, hp, hnone⟩
    have hne := dependentsLists_untraced (postCleanState env s).testDependencies
      helpers p hp hnone
    simp only [runAfterChanges, hpart, if_neg hcond1, if_neg hhelpers, if_neg hne]

/-- Witness for C1: one changed helper with a recorded dependent test
dispatches exactly that test. -/
theorem runAfterChanges_helper_dependents_spec_witness :
    ∃ L, (runAfterChanges ⟨fun p => ⟨p = "t1.js", false⟩, []⟩
        { emptyState with
          dirtyStates := [("h.js", "change")],
          testDependencies := [⟨"t1.js", ["t1.js", "h.js"]⟩] }).2 = some L ∧ L.Nodup ∧
      ∀ x, x ∈ L ↔ (x ∈ ([] : List String) ∨
        ∃ p ∈ ["h.js"], ∃ dep ∈ (postCleanState ⟨fun p => ⟨p = "t1.js", false⟩, []⟩
          { emptyState with
            dirtyStates := [("h.js", "change")],
            testDependencies := [⟨"t1.js", ["t1.js", "h.js"]⟩] }).testDependencies,
          dep.contains p = true ∧ dep.file = x) :=
  (runAfterChanges_helper_dependents_spec ⟨fun p => ⟨p = "t1.js", false⟩, []⟩
    { emptyState with
      dirtyStates := [("h.js", "change")],
      testDependencies := [⟨"t1.js", ["t1.js", "h.js"]⟩] }
    ["h.js"] [] [] (by decide) (by decide)).1 (by decide)

end Watch
